import Mathlib

/-!
Verification of the fixed-size chunker (`src/chunkers/fixedChunker.ts`).

Strings are modelled as `List Char`; a token is a maximal run of
non-whitespace characters, as produced by splitting on whitespace
(`text.split(/\s+/).filter(t => t.length > 0)`), modelled with
`List.splitOnP` on `Char.isWhitespace`.  Metadata objects are modelled
as key-lookup functions `String → Option MetaValue`, and the JS object
spread `{...base, chunk_index: i, word_count: n}` as a function update
where the two synthesized keys win.  Machine numbers appearing in the
configuration are modelled as `Int` (the constructor is exercised with
negative values); array indices inside the loop are `Nat`.
-/

/-- A metadata value: the synthesized keys store numbers; caller keys may
also carry strings. -/
inductive MetaValue where
  | num : Nat → MetaValue
  | str : List Char → MetaValue
deriving DecidableEq

/-- A metadata object, as a key-lookup function. -/
def Metadata : Type := String → Option MetaValue

/-- The JS object literal `{...base, chunk_index: idx, word_count: count}`:
base keys are kept, and the two synthesized keys override same-named base
keys (last write wins). -/
def mergeMeta (base : Metadata) (idx count : Nat) : Metadata :=
  fun k =>
    if k = "chunk_index" then some (.num idx)
    else if k = "word_count" then some (.num count)
    else base k

/-- `ChunkResult` from `fixedChunker.ts`: one produced chunk. -/
structure ChunkResult where
  content : List Char
  index : Nat
  metadata : Metadata

/-- `ChunkerOptions` from `fixedChunker.ts`. -/
structure ChunkerOptions where
  chunkSize : Int
  chunkOverlap : Int

/-- The `FixedChunker` class fields. -/
structure FixedChunker where
  chunkSize : Int
  chunkOverlap : Int
deriving DecidableEq

/-- The `FixedChunker` constructor: stores both options, then throws when
`chunkOverlap >= chunkSize`, then throws when `chunkSize <= 0`. -/
def FixedChunker.make (options : ChunkerOptions) : Except String FixedChunker :=
  if options.chunkOverlap ≥ options.chunkSize then
    .error "Chunk overlap must be less than chunk size to ensure progression."
  else if options.chunkSize ≤ 0 then
    .error "Chunk size must be a positive number."
  else
    .ok { chunkSize := options.chunkSize, chunkOverlap := options.chunkOverlap }

/-- `text.split(/\s+/).filter((token) => token.length > 0)`: split on runs of
whitespace and drop the empty pieces. -/
def tokenize (text : List Char) : List (List Char) :=
  (text.splitOnP (fun c => c.isWhitespace)).filter (fun t => t.length > 0)

/-- The `while (currentTokenStartIndex < tokens.length)` loop of
`FixedChunker.chunk`.  Each iteration slices
`tokens.slice(start, min(start + chunkSize, tokens.length))`, joins the
slice with single spaces, pushes the chunk with its merged metadata,
advances the cursor by `chunkSize - chunkOverlap` and increments the
index; as in the source, the loop breaks after the push when
`chunkSize - chunkOverlap <= 0`. -/
def chunkLoop (chunkSize chunkOverlap : Int) (tokens : List (List Char))
    (metadata : Metadata) (start idx : Nat) : List ChunkResult :=
  if h : start < tokens.length then
    let takeLen := (min ((start : Int) + chunkSize) (tokens.length : Int) - start).toNat
    let chunkTokens := (tokens.drop start).take takeLen
    let c : ChunkResult :=
      { content := List.intercalate [' '] chunkTokens
        index := idx
        metadata := mergeMeta metadata idx chunkTokens.length }
    if hstep : chunkSize - chunkOverlap ≤ 0 then [c]
    else
      c :: chunkLoop chunkSize chunkOverlap tokens metadata
        (start + (chunkSize - chunkOverlap).toNat) (idx + 1)
  else []
termination_by tokens.length - start
decreasing_by simp_wf; omega

/-- `FixedChunker.chunk`: tokenize, return `[]` on zero tokens, otherwise
run the chunking loop from the start of the token array. -/
def FixedChunker.chunk (self : FixedChunker) (text : List Char)
    (metadata : Metadata) : List ChunkResult :=
  let tokens := tokenize text
  if tokens.length = 0 then []
  else chunkLoop self.chunkSize self.chunkOverlap tokens metadata 0 0

/-- `ceil (d / s)` on naturals (for `s > 0`). -/
def ceilDiv (d s : Nat) : Nat := (d + s - 1) / s

/-- The window of at most `sizeN` tokens starting at token position
`start`. -/
def windowAt (tokens : List (List Char)) (sizeN start : Nat) : List (List Char) :=
  (tokens.drop start).take sizeN

/-- The chunk the loop emits for the window at token position `start` with
chunk index `idx`. -/
def mkChunkAt (tokens : List (List Char)) (metadata : Metadata)
    (sizeN start idx : Nat) : ChunkResult :=
  { content := List.intercalate [' '] (windowAt tokens sizeN start)
    index := idx
    metadata := mergeMeta metadata idx (windowAt tokens sizeN start).length }

/-- The spec's round-trip reassembly: keep the first chunk's tokens whole
and drop the first `ov` tokens of every later chunk, then concatenate. -/
def reconstruct (ov : Nat) (cs : List ChunkResult) : List (List Char) :=
  match cs with
  | [] => []
  | c :: rest =>
      tokenize c.content ++ (rest.map (fun d => (tokenize d.content).drop ov)).flatten

/-- `FixedChunker.make` succeeds exactly when `chunkOverlap < chunkSize`
and `0 < chunkSize`, returning the chunker with the given fields. -/
theorem make_ok_iff (o : ChunkerOptions) (c : FixedChunker) :
    FixedChunker.make o = .ok c ↔
      o.chunkOverlap < o.chunkSize ∧ 0 < o.chunkSize ∧
        c = ⟨o.chunkSize, o.chunkOverlap⟩ := by
  unfold FixedChunker.make
  split_ifs with h1 h2
  · constructor
    · intro h; cases h
    · intro ⟨h, _⟩; omega
  · constructor
    · intro h; cases h
    · intro ⟨_, h, _⟩; omega
  · constructor
    · intro h; cases h; exact ⟨by omega, by omega, rfl⟩
    · intro ⟨_, _, h⟩; rw [h]

/-- The loop emits nothing once the cursor has reached the token count. -/
theorem chunkLoop_stop (chunkSize chunkOverlap : Int) (tokens : List (List Char))
    (metadata : Metadata) (start idx : Nat) (h : ¬ start < tokens.length) :
    chunkLoop chunkSize chunkOverlap tokens metadata start idx = [] := by
  rw [chunkLoop]
  simp [h]

/-- The slice the loop takes at `start` is the window of `chunkSize`
tokens there (clamped at the end of the list). -/
theorem slice_eq_window (chunkSize : Int) (tokens : List (List Char)) (start : Nat)
    (hsz : 0 < chunkSize) :
    (tokens.drop start).take
        ((min ((start : Int) + chunkSize) ((tokens.length : Int)) - start).toNat) =
      (tokens.drop start).take chunkSize.toNat := by
  rw [List.take_eq_take, List.length_drop]
  omega

/-- With a validated configuration, one loop iteration emits the window
at `start` and continues at `start + (chunkSize - chunkOverlap)`. -/
theorem chunkLoop_cons (chunkSize chunkOverlap : Int) (tokens : List (List Char))
    (metadata : Metadata) (start idx : Nat)
    (hsz : 0 < chunkSize) (hstep : 0 < chunkSize - chunkOverlap)
    (h : start < tokens.length) :
    chunkLoop chunkSize chunkOverlap tokens metadata start idx =
      mkChunkAt tokens metadata chunkSize.toNat start idx ::
        chunkLoop chunkSize chunkOverlap tokens metadata
          (start + (chunkSize - chunkOverlap).toNat) (idx + 1) := by
  rw [chunkLoop]
  rw [dif_pos h, dif_neg (by omega : ¬ chunkSize - chunkOverlap ≤ 0)]
  congr 1
  unfold mkChunkAt windowAt
  rw [slice_eq_window chunkSize tokens start hsz]


/-- `ceilDiv 0 s = 0`. -/
theorem ceilDiv_zero_left (s : Nat) : ceilDiv 0 s = 0 := by
  unfold ceilDiv
  rcases Nat.eq_zero_or_pos s with h | h
  · simp [h]
  · exact Nat.div_eq_of_lt (by omega)

/-- Peeling one window off a positive remainder adds one to the ceiling
count. -/
theorem ceilDiv_step (d s : Nat) (hs : 0 < s) (hd : 0 < d) :
    ceilDiv d s = ceilDiv (d - s) s + 1 := by
  unfold ceilDiv
  rcases le_or_lt d s with h | h
  · have h0 : d - s = 0 := by omega
    have h1 : (d + s - 1) / s = 1 := Nat.div_eq_of_lt_le (by omega) (by omega)
    have h2 : (0 + s - 1) / s = 0 := Nat.div_eq_of_lt (by omega)
    rw [h0, h1, h2]
  · have he : d + s - 1 = (d - s + s - 1) + s := by omega
    rw [he, Nat.add_div_right _ hs]

/-- Master characterization of the loop with a validated configuration:
starting at cursor `start` it emits exactly
`ceil((tokenCount - start) / step)` chunks, the `j`-th being the window
at `start + j * step` with index `idx + j`. -/
theorem chunkLoop_eq_map (chunkSize chunkOverlap : Int) (tokens : List (List Char))
    (metadata : Metadata)
    (hsz : 0 < chunkSize) (hstep : 0 < chunkSize - chunkOverlap) :
    ∀ d start idx, tokens.length - start ≤ d →
      chunkLoop chunkSize chunkOverlap tokens metadata start idx =
        (List.range (ceilDiv (tokens.length - start) (chunkSize - chunkOverlap).toNat)).map
          (fun j => mkChunkAt tokens metadata chunkSize.toNat
            (start + j * (chunkSize - chunkOverlap).toNat) (idx + j)) := by
  intro d
  induction d with
  | zero =>
      intro start idx hle
      have h : ¬ start < tokens.length := by omega
      have h0 : tokens.length - start = 0 := by omega
      rw [chunkLoop_stop _ _ _ _ _ _ h, h0, ceilDiv_zero_left]
      simp
  | succ d ih =>
      intro start idx hle
      by_cases h : start < tokens.length
      · have hs1 : 1 ≤ (chunkSize - chunkOverlap).toNat := by omega
        rw [chunkLoop_cons _ _ _ _ _ _ hsz hstep h]
        rw [ih (start + (chunkSize - chunkOverlap).toNat) (idx + 1) (by omega)]
        have hcount : ceilDiv (tokens.length - start) (chunkSize - chunkOverlap).toNat =
            ceilDiv (tokens.length - (start + (chunkSize - chunkOverlap).toNat))
              (chunkSize - chunkOverlap).toNat + 1 := by
          rw [ceilDiv_step (tokens.length - start) (chunkSize - chunkOverlap).toNat
            (by omega) (by omega)]
          have he : tokens.length - start - (chunkSize - chunkOverlap).toNat =
              tokens.length - (start + (chunkSize - chunkOverlap).toNat) := by omega
          rw [he]
        rw [hcount, List.range_succ_eq_map, List.map_cons, List.map_map]
        congr 1
        · simp
        · apply List.map_congr_left
          intro a _
          simp only [Function.comp_apply, Nat.succ_eq_add_one]
          have h1 : start + (chunkSize - chunkOverlap).toNat +
              a * (chunkSize - chunkOverlap).toNat =
              start + (a + 1) * (chunkSize - chunkOverlap).toNat := by ring
          have h2 : idx + 1 + a = idx + (a + 1) := by omega
          rw [h1, h2]
      · have h0 : tokens.length - start = 0 := by omega
        rw [chunkLoop_stop _ _ _ _ _ _ h, h0, ceilDiv_zero_left]
        simp

/-- `chunk` on a validated configuration: the output is exactly
`ceil(tokenCount / step)` chunks, the `j`-th being the window at
`j * step` with index `j`. -/
theorem chunk_eq_map (c : FixedChunker) (text : List Char) (metadata : Metadata)
    (hsz : 0 < c.chunkSize) (hlt : c.chunkOverlap < c.chunkSize) :
    c.chunk text metadata =
      (List.range (ceilDiv (tokenize text).length (c.chunkSize - c.chunkOverlap).toNat)).map
        (fun j => mkChunkAt (tokenize text) metadata c.chunkSize.toNat
          (j * (c.chunkSize - c.chunkOverlap).toNat) j) := by
  simp only [FixedChunker.chunk]
  by_cases h : (tokenize text).length = 0
  · rw [if_pos h, h, ceilDiv_zero_left]
    simp
  · rw [if_neg h]
    rw [chunkLoop_eq_map c.chunkSize c.chunkOverlap (tokenize text) metadata hsz
      (by omega) (tokenize text).length 0 0 (by omega)]
    simp

/-- Elements of the pieces produced by `splitOnP` never satisfy the
splitting predicate. -/
theorem mem_splitOnP_not (p : Char → Bool) (xs : List Char) :
    ∀ piece ∈ xs.splitOnP p, ∀ a ∈ piece, p a = false := by
  induction xs with
  | nil =>
      intro piece hp a ha
      rw [List.splitOnP_nil] at hp
      simp at hp
      subst hp
      simp at ha
  | cons x xs ih =>
      intro piece hp a ha
      rw [List.splitOnP_cons] at hp
      by_cases hx : p x = true
      · rw [if_pos hx] at hp
        rcases List.mem_cons.mp hp with h | h
        · subst h; simp at ha
        · exact ih piece h a ha
      · rw [if_neg hx] at hp
        cases hs : xs.splitOnP p with
        | nil => exact absurd hs (List.splitOnP_ne_nil p xs)
        | cons hd tl =>
            rw [hs] at hp
            simp only [List.modifyHead] at hp
            rcases List.mem_cons.mp hp with h | h
            · subst h
              rcases List.mem_cons.mp ha with h1 | h1
              · subst h1; simpa using hx
              · exact ih hd (by rw [hs]; exact List.mem_cons_self hd tl) a h1
            · exact ih piece (by rw [hs]; exact List.mem_cons.mpr (Or.inr h)) a ha

/-- Every token produced by `tokenize` is nonempty and whitespace-free. -/
theorem tokenize_tokens_clean (text : List Char) :
    ∀ t ∈ tokenize text, t ≠ [] ∧ ∀ a ∈ t, a.isWhitespace = false := by
  intro t ht
  unfold tokenize at ht
  rcases List.mem_filter.mp ht with ⟨hmem, hlen⟩
  constructor
  · intro hnil
    subst hnil
    simp at hlen
  · exact mem_splitOnP_not _ text t hmem

/-- Splitting a separator-joined list of separator-free pieces recovers
the pieces. -/
theorem splitOnP_intercalate_sep (p : Char → Bool) (sep : Char) (hsep : p sep = true) :
    ∀ l : List (List Char), l ≠ [] → (∀ t ∈ l, ∀ a ∈ t, p a = false) →
      (List.intercalate [sep] l).splitOnP p = l := by
  intro l
  induction l with
  | nil => intro h; exact absurd rfl h
  | cons t rest ih =>
      intro _ hclean
      cases rest with
      | nil =>
          have : List.intercalate [sep] [t] = t := by
            simp [List.intercalate]
          rw [this]
          exact List.splitOnP_eq_single p t (by
            intro a ha
            simp [hclean t (List.mem_cons_self t []) a ha])
      | cons t' rest' =>
          have hstep : List.intercalate [sep] (t :: t' :: rest') =
              t ++ sep :: List.intercalate [sep] (t' :: rest') := by
            simp [List.intercalate, List.intersperse]
          rw [hstep]
          rw [List.splitOnP_first p t (by
            intro a ha
            simp [hclean t (List.mem_cons_self t (t' :: rest')) a ha]) sep hsep]
          congr 1
          exact ih (by simp) (by
            intro u hu a ha
            exact hclean u (List.mem_cons.mpr (Or.inr hu)) a ha)

/-- Tokenizing the space-joined form of nonempty whitespace-free tokens
recovers exactly those tokens. -/
theorem tokenize_intercalate (l : List (List Char))
    (hclean : ∀ t ∈ l, t ≠ [] ∧ ∀ a ∈ t, a.isWhitespace = false) :
    tokenize (List.intercalate [' '] l) = l := by
  unfold tokenize
  cases l with
  | nil =>
      have : List.intercalate [' '] ([] : List (List Char)) = [] := by
        simp [List.intercalate]
      rw [this, List.splitOnP_nil]
      simp
  | cons t rest =>
      rw [splitOnP_intercalate_sep (fun c => c.isWhitespace) ' ' (by decide)
        (t :: rest) (by simp) (fun u hu => (hclean u hu).2)]
      apply List.filter_eq_self.mpr
      intro u hu
      have := (hclean u hu).1
      simp only [decide_eq_true_eq]
      cases u with
      | nil => exact absurd rfl this
      | cons a u' => simp

/-- Splitting a list all of whose elements are separators leaves only
empty pieces. -/
theorem splitOnP_all_sep (p : Char → Bool) (xs : List Char)
    (h : ∀ a ∈ xs, p a = true) :
    ∀ piece ∈ xs.splitOnP p, piece = [] := by
  induction xs with
  | nil =>
      intro piece hp
      rw [List.splitOnP_nil] at hp
      simpa using hp
  | cons x xs ih =>
      intro piece hp
      rw [List.splitOnP_cons, if_pos (h x (List.mem_cons_self x xs))] at hp
      rcases List.mem_cons.mp hp with h1 | h1
      · exact h1
      · exact ih (fun a ha => h a (List.mem_cons.mpr (Or.inr ha))) piece h1

/-- A text made only of whitespace tokenizes to no tokens at all. -/
theorem tokenize_all_whitespace (text : List Char)
    (h : ∀ a ∈ text, a.isWhitespace = true) :
    tokenize text = [] := by
  unfold tokenize
  rw [List.filter_eq_nil_iff]
  intro piece hp
  rw [splitOnP_all_sep _ text h piece hp]
  simp

/-- Dropping the first `chunkOverlap` tokens of every chunk the loop
emits and concatenating yields the token suffix starting `chunkOverlap`
past the cursor. -/
theorem chunkLoop_drop_flatten (chunkSize chunkOverlap : Int) (tokens : List (List Char))
    (metadata : Metadata) (hsz : 0 < chunkSize) (hov : 0 ≤ chunkOverlap)
    (hlt : chunkOverlap < chunkSize)
    (hclean : ∀ t ∈ tokens, t ≠ [] ∧ ∀ a ∈ t, a.isWhitespace = false) :
    ∀ d start idx, tokens.length - start ≤ d →
      ((chunkLoop chunkSize chunkOverlap tokens metadata start idx).map
        (fun ch => (tokenize ch.content).drop chunkOverlap.toNat)).flatten =
      tokens.drop (start + chunkOverlap.toNat) := by
  intro d
  induction d with
  | zero =>
      intro start idx hle
      rw [chunkLoop_stop _ _ _ _ _ _ (by omega)]
      rw [List.drop_eq_nil_of_le (by omega)]
      simp
  | succ d ih =>
      intro start idx hle
      by_cases h : start < tokens.length
      · rw [chunkLoop_cons _ _ _ _ _ _ hsz (by omega) h, List.map_cons, List.flatten_cons]
        rw [ih (start + (chunkSize - chunkOverlap).toNat) (idx + 1) (by omega)]
        have hwclean : ∀ t ∈ windowAt tokens chunkSize.toNat start,
            t ≠ [] ∧ ∀ a ∈ t, a.isWhitespace = false := by
          intro t ht
          exact hclean t (List.drop_subset _ _ (List.take_subset _ _ ht))
        have hcontent : (mkChunkAt tokens metadata chunkSize.toNat start idx).content =
            List.intercalate [' '] (windowAt tokens chunkSize.toNat start) := rfl
        rw [hcontent, tokenize_intercalate _ hwclean]
        unfold windowAt
        rw [List.drop_take, List.drop_drop]
        have hsn : chunkSize.toNat - chunkOverlap.toNat =
            (chunkSize - chunkOverlap).toNat := by omega
        have harr : start + (chunkSize - chunkOverlap).toNat + chunkOverlap.toNat =
            start + chunkOverlap.toNat + (chunkSize - chunkOverlap).toNat := by omega
        rw [hsn, harr]
        nth_rewrite 2 [← List.drop_drop]
        exact List.take_append_drop _ _
      · rw [chunkLoop_stop _ _ _ _ _ _ h]
        rw [List.drop_eq_nil_of_le (by omega)]
        simp

/-- The empty base metadata object (the default `{}`). -/
def emptyMeta : Metadata := fun _ => none

/-- The sample text `"a b c d e"` of the spec's scenarios A and B. -/
def textFive : List Char := ['a', ' ', 'b', ' ', 'c', ' ', 'd', ' ', 'e']

/-- The sample text `"a b c"` (three tokens). -/
def textThree : List Char := ['a', ' ', 'b', ' ', 'c']

/-- The sample text `"a b"` (two tokens). -/
def textTwo : List Char := ['a', ' ', 'b']

/-- C1 counterexample: with `chunkSize = 3`, `chunkOverlap = 1` and the
three-token text `"a b c"` — which satisfies `1 ≤ tokenCount ≤ chunkSize`
under a valid configuration — `chunk` returns two chunks, not one. -/
theorem c1_counterexample :
    1 ≤ (tokenize textThree).length ∧
    (tokenize textThree).length ≤ (3 : Int).toNat ∧
    (FixedChunker.chunk ⟨3, 1⟩ textThree emptyMeta).length = 2 ∧
    (FixedChunker.chunk ⟨3, 1⟩ textThree emptyMeta).length ≠ 1 := by
  have hc := chunk_eq_map ⟨3, 1⟩ textThree emptyMeta (by norm_num) (by norm_num)
  refine ⟨by decide, by decide, ?_, ?_⟩ <;> rw [hc] <;> decide

/-- C1 (amended): for every valid configuration, a text whose token count
is at least 1 and at most `chunkSize - chunkOverlap` yields exactly one
chunk containing all tokens joined by single spaces, with index 0. -/
theorem c1_single_chunk (c : FixedChunker) (text : List Char) (metadata : Metadata)
    (hsz : 0 < c.chunkSize) (hov : 0 ≤ c.chunkOverlap) (hlt : c.chunkOverlap < c.chunkSize)
    (h1 : 1 ≤ (tokenize text).length)
    (h2 : (tokenize text).length ≤ (c.chunkSize - c.chunkOverlap).toNat) :
    c.chunk text metadata =
      [{ content := List.intercalate [' '] (tokenize text)
         index := 0
         metadata := mergeMeta metadata 0 (tokenize text).length }] := by
  rw [chunk_eq_map c text metadata hsz hlt]
  have hone : ceilDiv (tokenize text).length (c.chunkSize - c.chunkOverlap).toNat = 1 := by
    unfold ceilDiv
    exact Nat.div_eq_of_lt_le (by omega) (by omega)
  have hall : (tokenize text).take c.chunkSize.toNat = tokenize text :=
    List.take_of_length_le (by omega)
  rw [hone]
  have hr1 : List.range 1 = [0] := rfl
  rw [hr1, List.map_cons, List.map_nil]
  unfold mkChunkAt windowAt
  rw [Nat.zero_mul, List.drop_zero, hall]

/-- C1 witness: `chunkSize = 3`, `chunkOverlap = 1`, text `"a b"`
(two tokens, `2 ≤ 3 - 1`) gives the single full chunk. -/
theorem c1_single_chunk_witness :
    FixedChunker.chunk ⟨3, 1⟩ textTwo emptyMeta =
      [{ content := List.intercalate [' '] (tokenize textTwo)
         index := 0
         metadata := mergeMeta emptyMeta 0 (tokenize textTwo).length }] :=
  c1_single_chunk ⟨3, 1⟩ textTwo emptyMeta (by norm_num) (by norm_num) (by norm_num)
    (by decide) (by decide)

/-- C2 counterexample: with `chunkSize = 3`, `chunkOverlap = 1`,
`chunk "a b c d e"` does not return the two chunks
`["a b c"(0), "c d e"(1)]` the claim states. -/
theorem c2_counterexample :
    ¬ ((FixedChunker.chunk ⟨3, 1⟩ textFive emptyMeta).map
        (fun ch => (ch.content, ch.index)) =
      [(['a', ' ', 'b', ' ', 'c'], 0), (['c', ' ', 'd', ' ', 'e'], 1)]) := by
  have hc := chunk_eq_map ⟨3, 1⟩ textFive emptyMeta (by norm_num) (by norm_num)
  rw [hc]
  decide

/-- C2 (amended): with `chunkSize = 3`, `chunkOverlap = 1`,
`chunk "a b c d e"` returns exactly three chunks
`"a b c"(0)`, `"c d e"(1)` and the trailing overlap-only chunk `"e"(2)`. -/
theorem c2_three_chunks :
    (FixedChunker.chunk ⟨3, 1⟩ textFive emptyMeta).map
        (fun ch => (ch.content, ch.index)) =
      [(['a', ' ', 'b', ' ', 'c'], 0), (['c', ' ', 'd', ' ', 'e'], 1), (['e'], 2)] := by
  have hc := chunk_eq_map ⟨3, 1⟩ textFive emptyMeta (by norm_num) (by norm_num)
  rw [hc]
  decide

/-- C4: construction succeeds for `chunkSize > 0` and
`0 ≤ chunkOverlap < chunkSize`, and raises a configuration error when
`chunkOverlap ≥ chunkSize` or `chunkSize ≤ 0`. -/
theorem c4_constructor_validation (o : ChunkerOptions) :
    (0 < o.chunkSize → 0 ≤ o.chunkOverlap → o.chunkOverlap < o.chunkSize →
      FixedChunker.make o = .ok ⟨o.chunkSize, o.chunkOverlap⟩) ∧
    (o.chunkSize ≤ o.chunkOverlap ∨ o.chunkSize ≤ 0 →
      ∃ msg, FixedChunker.make o = .error msg) := by
  constructor
  · intro h1 _ h3
    exact (make_ok_iff o ⟨o.chunkSize, o.chunkOverlap⟩).mpr ⟨h3, h1, rfl⟩
  · intro h
    unfold FixedChunker.make
    split_ifs with ha hb
    · exact ⟨_, rfl⟩
    · exact ⟨_, rfl⟩
    · omega

/-- C4 witness: `(5, 2)` is accepted; `(5, 5)` is rejected. -/
theorem c4_constructor_validation_witness :
    FixedChunker.make ⟨5, 2⟩ = .ok ⟨5, 2⟩ ∧
      ∃ msg, FixedChunker.make ⟨5, 5⟩ = .error msg :=
  ⟨(c4_constructor_validation ⟨5, 2⟩).1 (by norm_num) (by norm_num) (by norm_num),
   (c4_constructor_validation ⟨5, 5⟩).2 (by norm_num)⟩

/-- C3: for every valid configuration, keeping the first chunk's tokens
and dropping the first `chunkOverlap` tokens of every later chunk
reconstructs the original token sequence exactly. -/
theorem c3_roundtrip (c : FixedChunker) (text : List Char) (metadata : Metadata)
    (hsz : 0 < c.chunkSize) (hov : 0 ≤ c.chunkOverlap) (hlt : c.chunkOverlap < c.chunkSize) :
    reconstruct c.chunkOverlap.toNat (c.chunk text metadata) = tokenize text := by
  have hclean := tokenize_tokens_clean text
  simp only [FixedChunker.chunk]
  by_cases h : (tokenize text).length = 0
  · rw [if_pos h, List.length_eq_zero.mp h]
    rfl
  · rw [if_neg h]
    rw [chunkLoop_cons _ _ _ _ _ _ hsz (by omega) (by omega)]
    simp only [reconstruct]
    have hwclean : ∀ t ∈ windowAt (tokenize text) c.chunkSize.toNat 0,
        t ≠ [] ∧ ∀ a ∈ t, a.isWhitespace = false := fun t ht =>
      hclean t (List.drop_subset _ _ (List.take_subset _ _ ht))
    have hcontent : (mkChunkAt (tokenize text) metadata c.chunkSize.toNat 0 0).content =
        List.intercalate [' '] (windowAt (tokenize text) c.chunkSize.toNat 0) := rfl
    rw [hcontent, tokenize_intercalate _ hwclean]
    rw [chunkLoop_drop_flatten c.chunkSize c.chunkOverlap (tokenize text) metadata hsz hov
      hlt hclean (tokenize text).length (0 + (c.chunkSize - c.chunkOverlap).toNat) 1
      (by omega)]
    unfold windowAt
    rw [List.drop_zero]
    have hsum : 0 + (c.chunkSize - c.chunkOverlap).toNat + c.chunkOverlap.toNat =
        c.chunkSize.toNat := by omega
    rw [hsum]
    exact List.take_append_drop _ _

/-- C3 witness: the round trip at `chunkSize = 3`, `chunkOverlap = 1` on
`"a b c d e"`. -/
theorem c3_roundtrip_witness :
    reconstruct (1 : Int).toNat (FixedChunker.chunk ⟨3, 1⟩ textFive emptyMeta) =
      tokenize textFive :=
  c3_roundtrip ⟨3, 1⟩ textFive emptyMeta (by norm_num) (by norm_num) (by norm_num)

/-- C5: on a successfully constructed chunker, `chunk` is a total
function: for every text (including the empty one) it returns a value,
a (possibly empty) list of chunks; there is no error outcome in its
type and no failing execution path. -/
theorem c5_chunk_never_fails (o : ChunkerOptions) (c : FixedChunker)
    (h : FixedChunker.make o = .ok c) (text : List Char) (metadata : Metadata) :
    ∃ cs : List ChunkResult, c.chunk text metadata = cs :=
  ⟨c.chunk text metadata, rfl⟩

/-- C5 witness: the empty string on the `(3, 1)` chunker. -/
theorem c5_chunk_never_fails_witness :
    FixedChunker.make ⟨3, 1⟩ = .ok ⟨3, 1⟩ ∧
      ∃ cs : List ChunkResult, FixedChunker.chunk ⟨3, 1⟩ [] emptyMeta = cs :=
  ⟨rfl, c5_chunk_never_fails ⟨3, 1⟩ ⟨3, 1⟩ rfl [] emptyMeta⟩

/-- C6: on a successfully constructed chunker the step
`chunkSize - chunkOverlap` is at least 1 and the number of produced
chunks (loop iterations) is at most
`ceil(tokenCount / (chunkSize - chunkOverlap))`. -/
theorem c6_progress_and_bound (o : ChunkerOptions) (c : FixedChunker)
    (h : FixedChunker.make o = .ok c) (text : List Char) (metadata : Metadata) :
    1 ≤ c.chunkSize - c.chunkOverlap ∧
      (c.chunk text metadata).length ≤
        ceilDiv (tokenize text).length (c.chunkSize - c.chunkOverlap).toNat := by
  obtain ⟨hlt, hsz, hc⟩ := (make_ok_iff o c).mp h
  subst hc
  constructor
  · show 1 ≤ o.chunkSize - o.chunkOverlap
    omega
  · rw [chunk_eq_map _ _ _ hsz hlt]
    rw [List.length_map, List.length_range]

/-- C6 witness: `(3, 1)` on `"a b c d e"`: at most `ceil(5 / 2) = 3`
chunks. -/
theorem c6_progress_and_bound_witness :
    1 ≤ (3 : Int) - 1 ∧
      (FixedChunker.chunk ⟨3, 1⟩ textFive emptyMeta).length ≤
        ceilDiv (tokenize textFive).length ((3 : Int) - 1).toNat :=
  c6_progress_and_bound ⟨3, 1⟩ ⟨3, 1⟩ rfl textFive emptyMeta

/-- C7: for every valid configuration, the `i`-th produced chunk carries
index `i` (so indices are `0, 1, ..., n-1` with no gaps) and holds the
token window starting at position `i * (chunkSize - chunkOverlap)`, so
output order matches left-to-right token position. -/
theorem c7_indices_and_positions (c : FixedChunker) (text : List Char) (metadata : Metadata)
    (hsz : 0 < c.chunkSize) (hov : 0 ≤ c.chunkOverlap) (hlt : c.chunkOverlap < c.chunkSize) :
    ∀ i (hi : i < (c.chunk text metadata).length),
      ((c.chunk text metadata).get ⟨i, hi⟩).index = i ∧
      ((c.chunk text metadata).get ⟨i, hi⟩).content =
        List.intercalate [' ']
          (windowAt (tokenize text) c.chunkSize.toNat
            (i * (c.chunkSize - c.chunkOverlap).toNat)) := by
  intro i hi
  have hmap := chunk_eq_map c text metadata hsz hlt
  have hget : (c.chunk text metadata).get ⟨i, hi⟩ =
      mkChunkAt (tokenize text) metadata c.chunkSize.toNat
        (i * (c.chunkSize - c.chunkOverlap).toNat) i := by
    rw [List.get_eq_getElem, List.getElem_of_eq hmap hi]
    simp only [List.getElem_map, List.getElem_range]
  rw [hget]
  exact ⟨rfl, rfl⟩

/-- C7 witness: the chunk at position 1 of `(3, 1)` on `"a b c d e"`. -/
theorem c7_indices_and_positions_witness :
    ∃ hi : 1 < (FixedChunker.chunk ⟨3, 1⟩ textFive emptyMeta).length,
      ((FixedChunker.chunk ⟨3, 1⟩ textFive emptyMeta).get ⟨1, hi⟩).index = 1 ∧
      ((FixedChunker.chunk ⟨3, 1⟩ textFive emptyMeta).get ⟨1, hi⟩).content =
        List.intercalate [' ']
          (windowAt (tokenize textFive) (3 : Int).toNat (1 * ((3 : Int) - 1).toNat)) := by
  have hlen : 1 < (FixedChunker.chunk ⟨3, 1⟩ textFive emptyMeta).length := by
    rw [chunk_eq_map ⟨3, 1⟩ textFive emptyMeta (by norm_num) (by norm_num)]
    decide
  exact ⟨hlen, c7_indices_and_positions ⟨3, 1⟩ textFive emptyMeta (by norm_num)
    (by norm_num) (by norm_num) 1 hlen⟩

/-- C8: every produced chunk's metadata maps every key other than the
two synthesized ones to the caller's base value, and maps `chunk_index`
to the chunk's own index and `word_count` to the chunk's token count —
the synthesized values win over same-named base keys. -/
theorem c8_metadata_merge (c : FixedChunker) (text : List Char) (metadata : Metadata)
    (hsz : 0 < c.chunkSize) (hov : 0 ≤ c.chunkOverlap) (hlt : c.chunkOverlap < c.chunkSize) :
    ∀ ch ∈ c.chunk text metadata,
      (∀ k, k ≠ "chunk_index" → k ≠ "word_count" → ch.metadata k = metadata k) ∧
      ch.metadata "chunk_index" = some (.num ch.index) ∧
      ch.metadata "word_count" = some (.num (tokenize ch.content).length) := by
  intro ch hch
  rw [chunk_eq_map c text metadata hsz hlt] at hch
  rcases List.mem_map.mp hch with ⟨j, _, rfl⟩
  have hwclean : ∀ t ∈ windowAt (tokenize text) c.chunkSize.toNat
      (j * (c.chunkSize - c.chunkOverlap).toNat),
      t ≠ [] ∧ ∀ a ∈ t, a.isWhitespace = false := fun t ht =>
    tokenize_tokens_clean text t (List.drop_subset _ _ (List.take_subset _ _ ht))
  refine ⟨?_, ?_, ?_⟩
  · intro k h1 h2
    simp only [mkChunkAt, mergeMeta]
    rw [if_neg h1, if_neg h2]
  · simp [mkChunkAt, mergeMeta]
  · simp [mkChunkAt, mergeMeta, tokenize_intercalate _ hwclean]

/-- A base metadata object that clashes with a synthesized key
(`word_count`) and also carries an ordinary key (`source`). -/
def clashMeta : Metadata := fun k =>
  if k = "word_count" then some (.str ['x'])
  else if k = "source" then some (.str ['s'])
  else none

/-- C8 witness: the first chunk of `(3, 1)` on `"a b c d e"` with a base
metadata whose `word_count` key is overridden by the synthesized one. -/
theorem c8_metadata_merge_witness :
    ∃ ch ∈ FixedChunker.chunk ⟨3, 1⟩ textFive clashMeta,
      (∀ k, k ≠ "chunk_index" → k ≠ "word_count" → ch.metadata k = clashMeta k) ∧
      ch.metadata "chunk_index" = some (.num ch.index) ∧
      ch.metadata "word_count" = some (.num (tokenize ch.content).length) := by
  have hlen : 0 < (FixedChunker.chunk ⟨3, 1⟩ textFive clashMeta).length := by
    rw [chunk_eq_map ⟨3, 1⟩ textFive clashMeta (by norm_num) (by norm_num)]
    decide
  exact ⟨(FixedChunker.chunk ⟨3, 1⟩ textFive clashMeta).get ⟨0, hlen⟩,
    List.get_mem _ 0 hlen,
    c8_metadata_merge ⟨3, 1⟩ textFive clashMeta (by norm_num) (by norm_num) (by norm_num)
      _ (List.get_mem _ 0 hlen)⟩

/-- C9: for every valid configuration, a text made only of whitespace
(including the empty text) yields the empty chunk list, as a normal
return value. -/
theorem c9_whitespace_empty (c : FixedChunker) (text : List Char) (metadata : Metadata)
    (hsz : 0 < c.chunkSize) (hov : 0 ≤ c.chunkOverlap) (hlt : c.chunkOverlap < c.chunkSize)
    (hws : ∀ a ∈ text, a.isWhitespace = true) :
    c.chunk text metadata = [] := by
  simp only [FixedChunker.chunk]
  rw [tokenize_all_whitespace text hws]
  rfl

/-- C9 witness: three spaces on the `(3, 1)` chunker. -/
theorem c9_whitespace_empty_witness :
    FixedChunker.chunk ⟨3, 1⟩ [' ', ' ', ' '] emptyMeta = [] :=
  c9_whitespace_empty ⟨3, 1⟩ [' ', ' ', ' '] emptyMeta (by norm_num) (by norm_num)
    (by norm_num) (by decide)

/-- C10: a negative overlap passes construction for any positive size;
the only construction-time checks are `chunkOverlap ≥ chunkSize` and
`chunkSize ≤ 0`, so success is exactly `chunkOverlap < chunkSize` and
`0 < chunkSize`. -/
theorem c10_negative_overlap (s o : Int) (hs : 0 < s) (ho : o < 0) :
    FixedChunker.make ⟨s, o⟩ = .ok ⟨s, o⟩ ∧
      ∀ s' o' : Int, (∃ fc, FixedChunker.make ⟨s', o'⟩ = .ok fc) ↔
        (o' < s' ∧ 0 < s') := by
  constructor
  · exact (make_ok_iff ⟨s, o⟩ ⟨s, o⟩).mpr ⟨ho.trans hs, hs, rfl⟩
  · intro s' o'
    constructor
    · rintro ⟨fc, hfc⟩
      have h := (make_ok_iff ⟨s', o'⟩ fc).mp hfc
      exact ⟨h.1, h.2.1⟩
    · rintro ⟨h1, h2⟩
      exact ⟨⟨s', o'⟩, (make_ok_iff ⟨s', o'⟩ ⟨s', o'⟩).mpr ⟨h1, h2, rfl⟩⟩

/-- C10 witness: size 5 with overlap -3 is accepted. -/
theorem c10_negative_overlap_witness :
    FixedChunker.make ⟨5, -3⟩ = .ok ⟨5, -3⟩ :=
  (c10_negative_overlap 5 (-3) (by norm_num) (by norm_num)).1
